import Mathlib

/-!
Verification of the URI-addressed filesystem access layer and the JSON-RPC
forwarding helper of this repository.

The filesystem service (`FileSystemNode` in `src/filesystem/node/node-filesystem.ts`)
is exercised by its test suite (`src/filesystem/node/node-filesystem.spec.ts`) but
its implementation file is not part of the source tree given here; the definitions
in the `Theia` namespace below are therefore modelled from the specification
(`spec.md`, sections 3, 4 and 7), with the on-disk hierarchy embedded as a finite
tree of files and directories and every operation written as an explicit
state-passing function returning the operation result together with the disk state
after the call.  The JSON-RPC `forward` function is embedded directly from its
source.
-/

set_option autoImplicit false

namespace Theia

/-- A URI path relative to the workspace root, as its ordered segments. -/
abbrev Path := List String

/-- Modelled from the spec: the on-disk hierarchy that `FileSystemNode`
(absent `node-filesystem.ts`) operates on — every entry is either a file with
text content and a last-modification timestamp (epoch millis), or a directory
with a timestamp and an ordered list of named child entries. -/
inductive FsNode where
  | file (content : String) (mtime : Nat)
  | dir (mtime : Nat) (entries : List (String × FsNode))

/-- Whether a node is a directory. -/
def FsNode.isDir : FsNode → Bool
  | .file _ _ => false
  | .dir _ _ => true

/-- Look up a named entry in a directory's entry list. -/
def findEntry : List (String × FsNode) → String → Option FsNode
  | [], _ => none
  | (n, c) :: es, s => if n = s then some c else findEntry es s

/-- Replace the value of the first entry named `s`. -/
def replaceEntry : List (String × FsNode) → String → FsNode → List (String × FsNode)
  | [], _, _ => []
  | (n, c) :: es, s, v => if n = s then (n, v) :: es else (n, c) :: replaceEntry es s v

/-- Drop every entry named `s`. -/
def removeEntry : List (String × FsNode) → String → List (String × FsNode)
  | [], _ => []
  | (n, c) :: es, s => if n = s then removeEntry es s else (n, c) :: removeEntry es s

/-- Resolve a path against a node: the on-disk state denoted by a URI, `none`
when nothing exists there (also when an intermediate segment is a file). -/
def lookup : FsNode → Path → Option FsNode
  | n, [] => some n
  | .file _ _, _ :: _ => none
  | .dir _ es, s :: rest =>
      match findEntry es s with
      | some c => lookup c rest
      | none => none

/-- Write the node `v` at path `p`, creating missing intermediate directories
(with timestamp `now`) implicitly and replacing whatever was at `p`; fails with
`none` when an intermediate path segment denotes a file. -/
def insertAt (now : Nat) : FsNode → Path → FsNode → Option FsNode
  | _, [], v => some v
  | .file _ _, _ :: _, _ => none
  | .dir m es, s :: rest, v =>
      match findEntry es s with
      | some c =>
          match insertAt now c rest v with
          | some c' => some (.dir m (replaceEntry es s c'))
          | none => none
      | none =>
          match insertAt now (.dir now []) rest v with
          | some c' => some (.dir m (es ++ [(s, c')]))
          | none => none

/-- Remove the entry at path `p` (the whole subtree); the root itself and
missing paths are left as they are. -/
def removeAt : FsNode → Path → FsNode
  | n, [] => n
  | .file c m, _ :: _ => .file c m
  | .dir m es, s :: rest =>
      match rest with
      | [] => .dir m (removeEntry es s)
      | _ :: _ =>
          match findEntry es s with
          | some c => .dir m (replaceEntry es s (removeAt c rest))
          | none => .dir m es

/-- Whether `insertAt` can succeed at path `p`: no file stands on an
intermediate segment of the path. -/
def canInsert : FsNode → Path → Bool
  | _, [] => true
  | .file _ _, _ :: _ => false
  | .dir _ es, s :: rest =>
      match findEntry es s with
      | some c => canInsert c rest
      | none => true

/-- `isAncestorOf p q` holds when `p` is a (not necessarily strict) prefix of
`q`, i.e. the entry at `q` lives inside the subtree rooted at `p`. -/
def isAncestorOf : Path → Path → Bool
  | [], _ => true
  | _ :: _, [] => false
  | a :: as, b :: bs => if a = b then isAncestorOf as bs else false

/-- Modelled from the spec: the canonical `FileStat` record of section 3 —
`size` is populated for files only, `hasChildren` for directories only, and
`children` only when one-level expansion was requested; an `Option` value of
`none` embeds the absence of the field on the JavaScript object. -/
structure FileStat where
  uri : Path
  lastModification : Nat
  isDirectory : Bool
  size : Option Nat
  hasChildren : Option Bool
  children : Option (List FileStat)

/-- Modelled from the spec: StatBuilder without expansion (section 4.1) — a
file Stat carries `size` and `lastModification` and never `hasChildren` or
`children`; a directory Stat carries `hasChildren` and no `size`. -/
def toFileStatBasic (uri : Path) : FsNode → FileStat
  | .file c m =>
      { uri := uri, lastModification := m, isDirectory := false,
        size := some c.length, hasChildren := none, children := none }
  | .dir m es =>
      { uri := uri, lastModification := m, isDirectory := true,
        size := none, hasChildren := some (!es.isEmpty), children := none }

/-- Modelled from the spec: StatBuilder with optional one-level expansion
(section 4.1) — when expansion is requested on a directory, `children` holds
the non-expanded Stat of each immediate entry (depth-one only). -/
def toFileStat (uri : Path) (n : FsNode) (expand : Bool) : FileStat :=
  match n, expand with
  | .dir m es, true =>
      { toFileStatBasic uri (.dir m es) with
        children := some (es.map (fun e => toFileStatBasic (uri ++ [e.1]) e.2)) }
  | _, _ => toFileStatBasic uri n

/-- Modelled from the spec: the error kinds of section 7.  `InvalidTarget`
stands for the failure of the underlying recursive move/copy primitive when the
target lies strictly inside the source subtree (a recursive duplication into
its own source is impossible on a real disk). -/
inductive FsError where
  | NotFound
  | AlreadyExists
  | NotAFile
  | NotADirectory
  | TypeConflict
  | NotEmpty
  | OutOfSync
  | UnsupportedEncoding
  | InvalidTarget
deriving DecidableEq

/-- The result of one filesystem call: the value or error returned to the
caller, paired with the on-disk state after the call (a rejected call leaves
the disk as it was). -/
abbrev FsResult (α : Type) := Except FsError α × FsNode

/-- Modelled from the spec: the text encodings the content store recognizes;
the well-known default charset is `utf8` (sections 4.2 and the `getEncoding`
test). -/
def supportedEncodings : List String := ["utf8"]

/-- Whether a requested optional encoding is recognized (no request means the
default encoding). -/
def encodingOk : Option String → Bool
  | none => true
  | some e => supportedEncodings.contains e

/-- Modelled from the spec: `getFileStat` / `stat(uri)` of section 4.1 —
`NotFound` when nothing exists at the URI, otherwise the one-level-expanded
Stat (the service's stat call expands one level, cf. the `getFileStat`
directory test). -/
def getFileStat (fs : FsNode) (uri : Path) : Except FsError FileStat :=
  match lookup fs uri with
  | none => .error .NotFound
  | some n => .ok (toFileStat uri n true)

/-- Modelled from the spec: `getWorkspaceRoot` of section 4.3 — the one-level
expanded Stat of the configured root. -/
def getWorkspaceRoot (fs : FsNode) : Except FsError FileStat :=
  getFileStat fs []

/-- Modelled from the spec: `FileContent` of section 3 — a non-expanded file
Stat paired with the decoded text content. -/
structure FileContent where
  stat : FileStat
  content : String

/-- Modelled from the spec: `resolveContent` of section 4.2 — `NotFound` when
nothing exists at the URI, `NotAFile` for a directory, `UnsupportedEncoding`
for an unrecognized encoding, otherwise the content with a non-expanded Stat. -/
def resolveContent (fs : FsNode) (uri : Path) (enc : Option String) :
    Except FsError FileContent :=
  match lookup fs uri with
  | none => .error .NotFound
  | some (.dir _ _) => .error .NotAFile
  | some (.file c m) =>
      if encodingOk enc then .ok ⟨toFileStatBasic uri (.file c m), c⟩
      else .error .UnsupportedEncoding

/-- Modelled from the spec: `setContent` of section 4.2 — the
optimistic-concurrency write.  The live Stat is recomputed at the start of the
write and compared with the caller-supplied expected Stat on `size` and
`lastModification`; a mismatch rejects with `OutOfSync` and leaves the disk
unchanged, a match persists the new content (stamped `now`). -/
def setContent (fs : FsNode) (stat : FileStat) (content : String)
    (enc : Option String) (now : Nat) : FsResult FileStat :=
  match lookup fs stat.uri with
  | none => (.error .NotFound, fs)
  | some (.dir _ _) => (.error .NotAFile, fs)
  | some (.file c m) =>
      if encodingOk enc then
        let live := toFileStatBasic stat.uri (.file c m)
        if stat.size = live.size ∧ stat.lastModification = live.lastModification then
          match insertAt now fs stat.uri (.file content now) with
          | some fs' => (.ok (toFileStatBasic stat.uri (.file content now)), fs')
          | none => (.error .NotADirectory, fs)
        else (.error .OutOfSync, fs)
      else (.error .UnsupportedEncoding, fs)

/-- Modelled from the spec: the final step of `move` once all conflict checks
passed — the underlying rename of the source subtree to the target location;
it cannot move a subtree strictly into itself (`InvalidTarget`) and cannot
create the target underneath a file (`NotADirectory`). -/
def moveExec (fs : FsNode) (src tgt : Path) (s : FsNode) (now : Nat) :
    FsResult FileStat :=
  if isAncestorOf src tgt = true ∧ src ≠ tgt then (.error .InvalidTarget, fs)
  else
    match insertAt now (removeAt fs src) tgt s with
    | some fs' => (.ok (toFileStatBasic tgt s), fs')
    | none => (.error .NotADirectory, fs)

/-- Modelled from the spec: `move` of section 4.3 — `NotFound` for an absent
source; for an existing target a directory-vs-file kind mismatch is always
rejected with `TypeConflict` regardless of `overwrite`, same-kind targets
require `overwrite` (`AlreadyExists` otherwise) and a directory may only
overwrite an empty directory (`NotEmpty` otherwise); on success the source
subtree now lives at the target and the Stat of the new location is
returned. -/
def move (fs : FsNode) (src tgt : Path) (overwrite : Bool) (now : Nat) :
    FsResult FileStat :=
  match lookup fs src with
  | none => (.error .NotFound, fs)
  | some s =>
      match lookup fs tgt with
      | some t =>
          if s.isDir ≠ t.isDir then (.error .TypeConflict, fs)
          else if overwrite then
            match t with
            | .file _ _ => moveExec fs src tgt s now
            | .dir _ [] => moveExec fs src tgt s now
            | .dir _ (_ :: _) => (.error .NotEmpty, fs)
          else (.error .AlreadyExists, fs)
      | none => moveExec fs src tgt s now

/-- Modelled from the spec: `copy` of section 4.3 — `NotFound` for an absent
source, `AlreadyExists` for a present target (no overwrite mode); otherwise
the source subtree is duplicated at the target, creating missing intermediate
target directories implicitly, and the source is left untouched.  The
underlying recursive duplication cannot copy a subtree into itself
(`InvalidTarget`). -/
def copy (fs : FsNode) (src tgt : Path) (now : Nat) : FsResult FileStat :=
  match lookup fs src with
  | none => (.error .NotFound, fs)
  | some s =>
      match lookup fs tgt with
      | some _ => (.error .AlreadyExists, fs)
      | none =>
          if isAncestorOf src tgt = true then (.error .InvalidTarget, fs)
          else
            match insertAt now fs tgt s with
            | some fs' => (.ok (toFileStatBasic tgt s), fs')
            | none => (.error .NotADirectory, fs)

/-- Modelled from the spec: `createFile` of section 4.3 — `AlreadyExists` when
something is already present at the URI, `UnsupportedEncoding` for a bad
encoding; otherwise the file is created (missing parent directories
implicitly) and its non-expanded Stat returned. -/
def createFile (fs : FsNode) (uri : Path) (content : String)
    (enc : Option String) (now : Nat) : FsResult FileStat :=
  match lookup fs uri with
  | some _ => (.error .AlreadyExists, fs)
  | none =>
      if encodingOk enc then
        match insertAt now fs uri (.file content now) with
        | some fs' => (.ok (toFileStatBasic uri (.file content now)), fs')
        | none => (.error .NotADirectory, fs)
      else (.error .UnsupportedEncoding, fs)

/-- Modelled from the spec: `createFolder` of section 4.3 — `AlreadyExists`
when a directory or file is already present at the URI; otherwise the
directory is created, missing intermediate directories implicitly, and its
Stat (with `hasChildren = false` and `children = []`) returned. -/
def createFolder (fs : FsNode) (uri : Path) (now : Nat) : FsResult FileStat :=
  match lookup fs uri with
  | some _ => (.error .AlreadyExists, fs)
  | none =>
      match insertAt now fs uri (.dir now []) with
      | some fs' => (.ok (toFileStat uri (.dir now []) true), fs')
      | none => (.error .NotADirectory, fs)

/-- Modelled from the spec: the change kinds of a `FileChange` (section 3). -/
inductive FileChangeType where
  | ADDED
  | UPDATED
  | DELETED
deriving DecidableEq

/-- Modelled from the spec: a `FileChange`, a (URI, ChangeKind) pair (section 3). -/
structure FileChange where
  uri : Path
  kind : FileChangeType
deriving DecidableEq

/-- A raw OS-level notification kind as the watcher receives it, before
coalescing. -/
inductive RawEventKind where
  | created
  | modified
  | deleted
deriving DecidableEq

/-- A raw OS-level notification: an affected path and what happened to it. -/
structure RawEvent where
  path : Path
  kind : RawEventKind
deriving DecidableEq

/-- The affected paths of a raw notification burst in first-occurrence order,
each path once (`seen` accumulates the paths already taken). -/
def dedupKeepFirst (seen : List Path) : List Path → List Path
  | [] => []
  | p :: ps =>
      if p ∈ seen then dedupKeepFirst seen ps
      else p :: dedupKeepFirst (p :: seen) ps

/-- The raw notification kinds affecting path `p`, in arrival order. -/
def kindsFor (raw : List RawEvent) (p : Path) : List RawEventKind :=
  (raw.filter (fun e => e.path == p)).map RawEvent.kind

/-- Modelled from the spec: the per-path classification policy of section 4.4 —
a path created within the window reports `ADDED` once (further modifications
merge into it), a path created and deleted within the window reports nothing,
a pre-existing path reports `DELETED` when last seen deleted and `UPDATED`
otherwise. -/
def classifyKinds (ks : List RawEventKind) : Option FileChangeType :=
  match ks.head?, ks.getLast? with
  | none, _ => none
  | some .created, some .deleted => none
  | some .created, _ => some .ADDED
  | some _, some .deleted => some .DELETED
  | some _, _ => some .UPDATED

/-- Modelled from the spec: the Watcher's coalescing step (section 4.4) — the
raw, possibly numerous low-level notifications of one coalescing window are
deduplicated and merged per affected path into a single classification, the
paths kept in the order the OS first reported them (parent before child for
newly created nested structures). -/
def coalesce (raw : List RawEvent) : List FileChange :=
  (dedupKeepFirst [] (raw.map RawEvent.path)).filterMap
    (fun p => (classifyKinds (kindsFor raw p)).map (fun k => FileChange.mk p k))

/-- Modelled from the spec: the Watcher's delivery step (sections 4.4 and 6) —
the coalesced changes of a window reach the client only while a client is
registered (`Watching` state); in the `Idle` state nothing is delivered. -/
def deliverChanges (clientRegistered : Bool) (raw : List RawEvent) :
    List FileChange :=
  if clientRegistered then coalesce raw else []

/-! Concrete workspace states used to instantiate the theorems below. -/

/-- A sample workspace: a file `foo.txt` with content `foo` and an empty
directory `bar` under the root. -/
def fsSample : FsNode := .dir 0 [("foo.txt", .file "foo" 5), ("bar", .dir 1 [])]

/-- The Stat a caller previously obtained for `foo.txt` in `fsSample`. -/
def statFooTxt : FileStat := toFileStatBasic ["foo.txt"] (.file "foo" 5)

/-- A non-empty directory node: one file `a.txt` with content `a`. -/
def srcNode2 : FsNode := .dir 1 [("a.txt", .file "a" 2)]

/-- A sample workspace: the non-empty directory `src` and the empty directory
`dst` under the root. -/
def fsSample2 : FsNode := .dir 0 [("src", srcNode2), ("dst", .dir 3 [])]

/-- The raw OS notification burst produced by creating directory `foo`, then
directory `foo/bar`, then writing file `foo/bar/baz.txt` inside the watched
root, in the order the OS reports them (parent before child, the file write
showing up as a creation followed by a modification). -/
def c8Raw : List RawEvent :=
  [⟨["foo"], .created⟩, ⟨["foo", "bar"], .created⟩,
   ⟨["foo", "bar", "baz.txt"], .created⟩, ⟨["foo", "bar", "baz.txt"], .modified⟩]

end Theia

namespace LanguageContribution

/-!
Embedding of `forward` from the language-contribution module
(`src/unnamed/part_000`): a JSON-RPC message is modelled by whether it is a
request (`isRequestMessage`), its method name, and its params, where the
params carry the `processId` field the code rewrites plus the rest of the
payload left opaque.
-/

/-- The params of a JSON-RPC message: the `processId` field together with the
remaining payload, which `forward` never touches, kept opaque. -/
structure Params where
  processId : Int
  rest : String
deriving DecidableEq

/-- A JSON-RPC message as `forward` inspects it. -/
structure Message where
  isRequest : Bool
  method : String
  params : Params
deriving DecidableEq

/-- The method name of the `initialize` request
(`InitializeRequest.type.method`). -/
def initializeMethod : String := "initialize"

/-- The inner `_map` of `forward`: an initialize request gets its
`params.processId` replaced by the forwarding process's own pid; any other
message passes through unchanged. -/
def mapInitialize (pid : Int) (message : Message) : Message :=
  if message.isRequest = true ∧ message.method = initializeMethod then
    { message with params := { message.params with processId := pid } }
  else message

/-- The optional caller-supplied message map of `forward` (`map ? map(message)
: message`). -/
def applyMap (map : Option (Message → Message)) (message : Message) : Message :=
  match map with
  | some f => f message
  | none => message

/-- `forward`: each message is passed through the caller-supplied map when one
is given and then through `_map` before delivery to the server connection. -/
def forward (pid : Int) (map : Option (Message → Message)) (message : Message) :
    Message :=
  mapInitialize pid (applyMap map message)

/-- A sample `initialize` request as a language client would send it. -/
def initMessage : Message :=
  { isRequest := true, method := "initialize",
    params := { processId := 0, rest := "clientCapabilities" } }

end LanguageContribution

namespace Theia

/-! Entry-list lemmas. -/

theorem findEntry_replaceEntry_self (es : List (String × FsNode)) (s : String)
    (v c : FsNode) (h : findEntry es s = some c) :
    findEntry (replaceEntry es s v) s = some v := by
  induction es with
  | nil => simp [findEntry] at h
  | cons e es ih =>
      obtain ⟨n, c0⟩ := e
      by_cases hn : n = s
      · simp [findEntry, replaceEntry, hn]
      · simp only [findEntry, replaceEntry, if_neg hn] at h ⊢
        exact ih h

theorem findEntry_replaceEntry_ne (es : List (String × FsNode)) (s t : String)
    (v : FsNode) (hts : t ≠ s) :
    findEntry (replaceEntry es s v) t = findEntry es t := by
  induction es with
  | nil => simp [replaceEntry]
  | cons e es ih =>
      obtain ⟨n, c0⟩ := e
      by_cases hn : n = s
      · subst hn
        have hnt : ¬ n = t := fun h => hts (h.symm)
        simp [findEntry, replaceEntry, hnt]
      · by_cases hnt : n = t <;>
          simp [findEntry, replaceEntry, hn, hnt, ih, hts]

theorem findEntry_append_of_none (es l : List (String × FsNode)) (t : String)
    (h : findEntry es t = none) : findEntry (es ++ l) t = findEntry l t := by
  induction es with
  | nil => simp
  | cons e es ih =>
      obtain ⟨n, c0⟩ := e
      by_cases hn : n = t
      · simp [findEntry, hn] at h
      · simp only [findEntry, if_neg hn, List.cons_append] at h ⊢
        exact ih h

theorem findEntry_append_of_some (es l : List (String × FsNode)) (t : String)
    (c : FsNode) (h : findEntry es t = some c) :
    findEntry (es ++ l) t = some c := by
  induction es with
  | nil => simp [findEntry] at h
  | cons e es ih =>
      obtain ⟨n, c0⟩ := e
      by_cases hn : n = t
      · simp only [findEntry, if_pos hn, List.cons_append] at h ⊢
        exact h
      · simp only [findEntry, if_neg hn, List.cons_append] at h ⊢
        exact ih h

theorem findEntry_removeEntry_self (es : List (String × FsNode)) (s : String) :
    findEntry (removeEntry es s) s = none := by
  induction es with
  | nil => simp [removeEntry, findEntry]
  | cons e es ih =>
      obtain ⟨n, c0⟩ := e
      by_cases hn : n = s
      · simp [removeEntry, hn, ih]
      · simp [removeEntry, findEntry, hn, ih]

theorem findEntry_removeEntry_ne (es : List (String × FsNode)) (s t : String)
    (hts : t ≠ s) : findEntry (removeEntry es s) t = findEntry es t := by
  induction es with
  | nil => simp [removeEntry]
  | cons e es ih =>
      obtain ⟨n, c0⟩ := e
      by_cases hn : n = s
      · subst hn
        have hnt : ¬ n = t := fun h => hts (h.symm)
        simp [removeEntry, findEntry, hnt, ih]
      · by_cases hnt : n = t <;>
          simp [removeEntry, findEntry, hn, hnt, ih, hts]

/-! Path lemmas. -/

theorem isAncestorOf_refl (p : Path) : isAncestorOf p p = true := by
  induction p with
  | nil => rfl
  | cons a as ih => simp [isAncestorOf, ih]

theorem isAncestorOf_exists (p : Path) :
    ∀ q : Path, isAncestorOf p q = true → ∃ r, q = p ++ r := by
  induction p with
  | nil => exact fun q _ => ⟨q, rfl⟩
  | cons a as ih =>
      intro q h
      match q with
      | [] => simp [isAncestorOf] at h
      | b :: bs =>
          by_cases hab : a = b

          · subst hab
            simp only [isAncestorOf, if_pos rfl] at h
            obtain ⟨r, rfl⟩ := ih bs h
            exact ⟨r, rfl⟩
          · simp [isAncestorOf, hab] at h

theorem lookup_append (p : Path) :
    ∀ (q : Path) (fs : FsNode),
      lookup fs (p ++ q) = (lookup fs p).bind (fun x => lookup x q) := by
  induction p with
  | nil => intro q fs; simp [lookup]
  | cons a as ih =>
      intro q fs
      match fs with
      | .file c m => simp [lookup]
      | .dir m es =>
          simp only [List.cons_append, lookup]
          match findEntry es a with
          | some c => exact ih q c
          | none => simp

theorem lookup_emptyDir (m : Nat) (x : String) (xs : Path) :
    lookup (.dir m []) (x :: xs) = none := rfl

theorem lookup_nil (fs : FsNode) : lookup fs [] = some fs := by
  cases fs <;> rfl

theorem canInsert_nil (fs : FsNode) : canInsert fs [] = true := by
  cases fs <;> rfl

theorem insertAt_nil (now : Nat) (fs v : FsNode) :
    insertAt now fs [] v = some v := by
  cases fs <;> rfl

theorem removeAt_nil (fs : FsNode) : removeAt fs [] = fs := by
  cases fs <;> rfl

theorem findEntry_append_single_ne (es : List (String × FsNode)) (a b : String)
    (c' : FsNode) (hba : b ≠ a) :
    findEntry (es ++ [(a, c')]) b = findEntry es b := by
  rcases hfe : findEntry es b with _ | c
  · rw [findEntry_append_of_none es _ b hfe]
    have hab : ¬ a = b := fun h => hba h.symm
    simp [findEntry, hab]
  · exact findEntry_append_of_some es _ b c hfe

/-! Core lemmas about `lookup`, `insertAt`, `removeAt` and `canInsert`. -/

theorem lookup_insertAt_self (p : Path) :
    ∀ (now : Nat) (fs v fs' : FsNode),
      insertAt now fs p v = some fs' → lookup fs' p = some v := by
  induction p with
  | nil =>
      intro now fs v fs' h
      rw [insertAt_nil, Option.some.injEq] at h
      subst h
      exact lookup_nil v
  | cons a as ih =>
      intro now fs v fs' h
      match fs with
      | .file c m => simp [insertAt] at h
      | .dir m es =>
          rcases hfe : findEntry es a with _ | c
          · rcases hin : insertAt now (.dir now []) as v with _ | c'
            · simp [insertAt, hfe, hin] at h
            · simp only [insertAt, hfe, hin, Option.some.injEq] at h
              subst h
              have hf : findEntry (es ++ [(a, c')]) a = some c' := by
                rw [findEntry_append_of_none es _ a hfe]
                simp [findEntry]
              simp only [lookup, hf]
              exact ih now (.dir now []) v c' hin
          · rcases hin : insertAt now c as v with _ | c'
            · simp [insertAt, hfe, hin] at h
            · simp only [insertAt, hfe, hin, Option.some.injEq] at h
              subst h
              have hf := findEntry_replaceEntry_self es a c' c hfe
              simp only [lookup, hf]
              exact ih now c v c' hin

theorem lookup_insertAt_frame (p : Path) :
    ∀ (q : Path) (now : Nat) (fs v fs' : FsNode),
      isAncestorOf p q = false → isAncestorOf q p = false →
      insertAt now fs p v = some fs' → lookup fs' q = lookup fs q := by
  induction p with
  | nil => intro q now fs v fs' hpq _ _; simp [isAncestorOf] at hpq
  | cons a as ih =>
      intro q now fs v fs' hpq hqp h
      match fs with
      | .file c m => simp [insertAt] at h
      | .dir m es =>
          match q with
          | [] => simp [isAncestorOf] at hqp
          | b :: bs =>
              by_cases hab : a = b
              · subst hab
                simp only [isAncestorOf, if_pos rfl] at hpq hqp
                rcases hfe : findEntry es a with _ | c
                · rcases hin : insertAt now (.dir now []) as v with _ | c'
                  · simp [insertAt, hfe, hin] at h
                  · simp only [insertAt, hfe, hin, Option.some.injEq] at h
                    subst h
                    have hf : findEntry (es ++ [(a, c')]) a = some c' := by
                      rw [findEntry_append_of_none es _ a hfe]
                      simp [findEntry]
                    cases bs with
                    | nil => simp [isAncestorOf] at hqp
                    | cons x xs =>
                        simp only [lookup, hf, hfe]
                        rw [ih (x :: xs) now (.dir now []) v c' hpq hqp hin]
                        exact lookup_emptyDir now x xs
                · rcases hin : insertAt now c as v with _ | c'
                  · simp [insertAt, hfe, hin] at h
                  · simp only [insertAt, hfe, hin, Option.some.injEq] at h
                    subst h
                    have hf := findEntry_replaceEntry_self es a c' c hfe
                    simp only [lookup, hf, hfe]
                    exact ih bs now c v c' hpq hqp hin
              · rcases hfe : findEntry es a with _ | c
                · rcases hin : insertAt now (.dir now []) as v with _ | c'
                  · simp [insertAt, hfe, hin] at h
                  · simp only [insertAt, hfe, hin, Option.some.injEq] at h
                    subst h
                    simp only [lookup,
                      findEntry_append_single_ne es a b c' (fun hh => hab hh.symm)]
                · rcases hin : insertAt now c as v with _ | c'
                  · simp [insertAt, hfe, hin] at h
                  · simp only [insertAt, hfe, hin, Option.some.injEq] at h
                    subst h
                    simp only [lookup,
                      findEntry_replaceEntry_ne es a b c' (fun hh => hab hh.symm)]

theorem insertAt_intermediate_dirs (p : Path) :
    ∀ (q : Path) (now : Nat) (fs v fs' : FsNode),
      insertAt now fs p v = some fs' → isAncestorOf q p = true → q ≠ p →
      ∃ dm des, lookup fs' q = some (.dir dm des) := by
  induction p with
  | nil =>
      intro q now fs v fs' _ hq hne
      match q with
      | [] => exact absurd rfl hne
      | x :: xs => simp [isAncestorOf] at hq
  | cons a as ih =>
      intro q now fs v fs' h hq hne
      match fs with
      | .file c m => simp [insertAt] at h
      | .dir m es =>
          match q with
          | [] =>
              rcases hfe : findEntry es a with _ | c
              · rcases hin : insertAt now (.dir now []) as v with _ | c'
                · simp [insertAt, hfe, hin] at h
                · simp only [insertAt, hfe, hin, Option.some.injEq] at h
                  subst h
                  exact ⟨m, es ++ [(a, c')], rfl⟩
              · rcases hin : insertAt now c as v with _ | c'
                · simp [insertAt, hfe, hin] at h
                · simp only [insertAt, hfe, hin, Option.some.injEq] at h
                  subst h
                  exact ⟨m, replaceEntry es a c', rfl⟩
          | b :: bs =>
              by_cases hab : b = a
              · subst hab
                simp only [isAncestorOf, if_pos rfl] at hq
                have hbsas : bs ≠ as := fun hh => hne (by rw [hh])
                rcases hfe : findEntry es b with _ | c
                · rcases hin : insertAt now (.dir now []) as v with _ | c'
                  · simp [insertAt, hfe, hin] at h
                  · simp only [insertAt, hfe, hin, Option.some.injEq] at h
                    subst h
                    have hf : findEntry (es ++ [(b, c')]) b = some c' := by
                      rw [findEntry_append_of_none es _ b hfe]
                      simp [findEntry]
                    simp only [lookup, hf]
                    exact ih bs now (.dir now []) v c' hin hq hbsas
                · rcases hin : insertAt now c as v with _ | c'
                  · simp [insertAt, hfe, hin] at h
                  · simp only [insertAt, hfe, hin, Option.some.injEq] at h
                    subst h
                    have hf := findEntry_replaceEntry_self es b c' c hfe
                    simp only [lookup, hf]
                    exact ih bs now c v c' hin hq hbsas
              · simp [isAncestorOf, hab] at hq

theorem canInsert_of_lookup (p : Path) :
    ∀ (fs n : FsNode), lookup fs p = some n → canInsert fs p = true := by
  induction p with
  | nil => intro fs n _; exact canInsert_nil fs
  | cons a as ih =>
      intro fs n h
      match fs with
      | .file c m => simp [lookup] at h
      | .dir m es =>
          rcases hfe : findEntry es a with _ | c
          · simp [lookup, hfe] at h
          · simp only [lookup, hfe] at h
            simp only [canInsert, hfe]
            exact ih c n h

theorem canInsert_emptyDir (m : Nat) (p : Path) :
    canInsert (.dir m []) p = true := by
  cases p <;> rfl

theorem insertAt_isSome_of_canInsert (p : Path) :
    ∀ (now : Nat) (fs v : FsNode), canInsert fs p = true →
      ∃ fs', insertAt now fs p v = some fs' := by
  induction p with
  | nil => intro now fs v _; exact ⟨v, insertAt_nil now fs v⟩
  | cons a as ih =>
      intro now fs v h
      match fs with
      | .file c m => simp [canInsert] at h
      | .dir m es =>
          rcases hfe : findEntry es a with _ | c
          · obtain ⟨c', hc'⟩ := ih now (.dir now []) v (canInsert_emptyDir now as)
            exact ⟨.dir m (es ++ [(a, c')]), by simp [insertAt, hfe, hc']⟩
          · simp only [canInsert, hfe] at h
            obtain ⟨c', hc'⟩ := ih now c v h
            exact ⟨.dir m (replaceEntry es a c'), by simp [insertAt, hfe, hc']⟩

theorem canInsert_removeAt (p : Path) :
    ∀ (q : Path) (fs : FsNode), canInsert fs p = true →
      canInsert (removeAt fs q) p = true := by
  induction p with
  | nil => intro q fs _; exact canInsert_nil _
  | cons a as ih =>
      intro q fs h
      match fs with
      | .file c m => simp [canInsert] at h
      | .dir m es =>
          match q with
          | [] => cases as <;> simpa [removeAt] using h
          | b :: bs =>
              cases bs with
              | nil =>
                  by_cases hab : a = b
                  · subst hab
                    simp [removeAt, canInsert, findEntry_removeEntry_self]
                  · simp only [removeAt, canInsert,
                      findEntry_removeEntry_ne es b a hab]
                    simpa [canInsert] using h
              | cons b2 bs2 =>
                  rcases hfe : findEntry es b with _ | c
                  · simpa [removeAt, hfe, canInsert] using h
                  · by_cases hab : a = b
                    · subst hab
                      simp only [removeAt, hfe, canInsert,
                        findEntry_replaceEntry_self es a _ c hfe]
                      simp only [canInsert, hfe] at h
                      exact ih (b2 :: bs2) c h
                    · simp only [removeAt, hfe, canInsert,
                        findEntry_replaceEntry_ne es b a _ hab]
                      simpa [canInsert] using h

theorem lookup_removeAt_self (p : Path) :
    ∀ (fs n : FsNode), lookup fs p = some n → p ≠ [] →
      lookup (removeAt fs p) p = none := by
  induction p with
  | nil => intro fs n _ hne; exact absurd rfl hne
  | cons s rest ih =>
      intro fs n h _
      match fs with
      | .file c m => simp [lookup] at h
      | .dir m es =>
          cases rest with
          | nil => simp [removeAt, lookup, findEntry_removeEntry_self]
          | cons r rs =>
              rcases hfe : findEntry es s with _ | c
              · simp [lookup, hfe] at h
              · simp only [lookup, hfe] at h
                simp only [removeAt, hfe, lookup,
                  findEntry_replaceEntry_self es s _ c hfe]
                exact ih c n h (by simp)

theorem lookup_removeAt_frame (p : Path) :
    ∀ (q : Path) (fs : FsNode), isAncestorOf p q = false →
      isAncestorOf q p = false →
      lookup (removeAt fs p) q = lookup fs q := by
  induction p with
  | nil => intro q fs hpq _; simp [isAncestorOf] at hpq
  | cons a as ih =>
      intro q fs hpq hqp
      match fs with
      | .file c m => cases as <;> simp [removeAt]
      | .dir m es =>
          match q with
          | [] => simp [isAncestorOf] at hqp
          | b :: bs =>
              by_cases hab : a = b
              · subst hab
                simp only [isAncestorOf, if_pos rfl] at hpq hqp
                cases as with
                | nil => simp [isAncestorOf] at hpq
                | cons a2 as2 =>
                    rcases hfe : findEntry es a with _ | c
                    · simp [removeAt, hfe]
                    · simp only [removeAt, hfe, lookup,
                        findEntry_replaceEntry_self es a _ c hfe]
                      exact ih bs c hpq hqp
              · cases as with
                | nil =>
                    simp only [removeAt, lookup,
                      findEntry_removeEntry_ne es a b (fun hh => hab hh.symm)]
                | cons a2 as2 =>
                    rcases hfe : findEntry es a with _ | c
                    · simp [removeAt, hfe]
                    · simp only [removeAt, hfe, lookup,
                        findEntry_replaceEntry_ne es a b _ (fun hh => hab hh.symm)]

theorem lookup_removeAt_file (p : Path) :
    ∀ (q : Path) (fs : FsNode) (c : String) (m : Nat),
      lookup (removeAt fs p) q = some (.file c m) →
      lookup fs q = some (.file c m) := by
  induction p with
  | nil => intro q fs c m h; cases fs <;> simpa [removeAt] using h
  | cons s rest ih =>
      intro q fs c m h
      match fs with
      | .file c0 m0 => cases rest <;> simpa [removeAt] using h
      | .dir m0 es =>
          cases rest with
          | nil =>
              match q with
              | [] => simp [removeAt, lookup] at h
              | b :: bs =>
                  by_cases hbs : b = s
                  · subst hbs
                    simp [removeAt, lookup, findEntry_removeEntry_self] at h
                  · simp only [removeAt, lookup,
                      findEntry_removeEntry_ne es s b hbs] at h
                    simpa [lookup] using h
          | cons r rs =>
              rcases hfe : findEntry es s with _ | c0
              · simpa [removeAt, hfe] using h
              · match q with
                | [] => simp [removeAt, hfe, lookup] at h
                | b :: bs =>
                    by_cases hbs : b = s
                    · subst hbs
                      simp only [removeAt, hfe, lookup,
                        findEntry_replaceEntry_self es b _ c0 hfe] at h
                      simp only [lookup, hfe]
                      exact ih bs c0 c m h
                    · simp only [removeAt, hfe, lookup,
                        findEntry_replaceEntry_ne es s b _ hbs] at h
                      simpa [lookup] using h

theorem canInsert_append_file (p : Path) :
    ∀ (fs : FsNode) (c : String) (m : Nat) (x : String) (xs : Path),
      lookup fs p = some (.file c m) →
      canInsert fs (p ++ x :: xs) = false := by
  induction p with
  | nil =>
      intro fs c m x xs h
      simp only [lookup, Option.some.injEq] at h
      subst h
      rfl
  | cons a as ih =>
      intro fs c m x xs h
      match fs with
      | .file c0 m0 => simp [lookup] at h
      | .dir m0 es =>
          rcases hfe : findEntry es a with _ | c0
          · simp [lookup, hfe] at h
          · simp only [lookup, hfe] at h
            simp only [List.cons_append, canInsert, hfe]
            exact ih c0 c m x xs h

/-! Reductions of the service operations on their success and failure
branches, shared by the claim theorems below. -/

theorem toFileStatBasic_children (uri : Path) (n : FsNode) :
    (toFileStatBasic uri n).children = none := by
  cases n <;> rfl

theorem setContent_ok (fs : FsNode) (stat : FileStat) (c content : String)
    (m now : Nat) (hfile : lookup fs stat.uri = some (.file c m))
    (h1 : stat.size = some c.length) (h2 : stat.lastModification = m) :
    ∃ fs', setContent fs stat content none now
        = (.ok (toFileStatBasic stat.uri (.file content now)), fs')
      ∧ lookup fs' stat.uri = some (.file content now) := by
  obtain ⟨fs', hins⟩ := insertAt_isSome_of_canInsert stat.uri now fs
    (.file content now) (canInsert_of_lookup stat.uri fs _ hfile)
  refine ⟨fs', ?_, lookup_insertAt_self stat.uri now fs _ fs' hins⟩
  simp [setContent, hfile, encodingOk, toFileStatBasic, h1, h2, hins]

theorem setContent_outOfSync (fs : FsNode) (stat : FileStat)
    (c content : String) (m now : Nat)
    (hfile : lookup fs stat.uri = some (.file c m))
    (hmis : ¬ (stat.size = some c.length ∧ stat.lastModification = m)) :
    setContent fs stat content none now = (.error .OutOfSync, fs) := by
  simp [setContent, hfile, encodingOk, toFileStatBasic, hmis]

theorem createFile_ok (fs : FsNode) (uri : Path) (content : String) (now : Nat)
    (habs : lookup fs uri = none) (hci : canInsert fs uri = true) :
    ∃ fs', createFile fs uri content none now
        = (.ok (toFileStatBasic uri (.file content now)), fs')
      ∧ lookup fs' uri = some (.file content now) := by
  obtain ⟨fs', hins⟩ := insertAt_isSome_of_canInsert uri now fs
    (.file content now) hci
  exact ⟨fs', by simp [createFile, habs, encodingOk, hins],
    lookup_insertAt_self uri now fs _ fs' hins⟩

theorem moveExec_ok (fs : FsNode) (src tgt : Path) (s fs' : FsNode) (now : Nat)
    (hanc : isAncestorOf src tgt = false)
    (hins : insertAt now (removeAt fs src) tgt s = some fs') :
    moveExec fs src tgt s now = (.ok (toFileStatBasic tgt s), fs') := by
  simp [moveExec, hins, hanc]

/-- Claim C1: for every existing file and every previously obtained Stat
supplied to `setContent`, the write succeeds — and the resulting on-disk
content equals the written bytes — exactly when the live on-disk Stat
(recomputed at the start of the write) matches the supplied Stat in `size`
and `lastModification`; on a mismatch in either field the call fails with
`OutOfSync` and the disk (hence the file's content) is returned unchanged. -/
theorem setContent_optimistic_write
    (fs : FsNode) (stat : FileStat) (c newContent : String) (m now : Nat)
    (hfile : lookup fs stat.uri = some (.file c m)) :
    (stat.size = some c.length ∧ stat.lastModification = m →
      ∃ fs', setContent fs stat newContent none now
          = (.ok (toFileStatBasic stat.uri (.file newContent now)), fs')
        ∧ lookup fs' stat.uri = some (.file newContent now))
  ∧ (¬ (stat.size = some c.length ∧ stat.lastModification = m) →
      setContent fs stat newContent none now = (.error .OutOfSync, fs)) := by
  constructor
  · rintro ⟨h1, h2⟩
    exact setContent_ok fs stat c newContent m now hfile h1 h2
  · intro hmis
    exact setContent_outOfSync fs stat c newContent m now hfile hmis

/-- Witness for C1: in `fsSample` the Stat obtained for `foo.txt` matches the
live state, so writing `baz` succeeds and the file afterwards holds `baz`. -/
theorem setContent_optimistic_write_witness :
    ∃ fs', setContent fsSample statFooTxt "baz" none 9
        = (.ok (toFileStatBasic ["foo.txt"] (.file "baz" 9)), fs')
      ∧ lookup fs' ["foo.txt"] = some (.file "baz" 9) :=
  (setContent_optimistic_write fsSample statFooTxt "foo" "baz" 5 9 rfl).1
    ⟨rfl, rfl⟩

/-- Claim C2: when the source and the existing target of `move` differ in kind
(file vs directory), the call fails with `TypeConflict` for every value of the
`overwrite` option, and the disk — hence both source and target — is returned
unchanged. -/
theorem move_kind_mismatch_conflict
    (fs : FsNode) (src tgt : Path) (s t : FsNode) (overwrite : Bool) (now : Nat)
    (hs : lookup fs src = some s) (ht : lookup fs tgt = some t)
    (hkind : s.isDir ≠ t.isDir) :
    move fs src tgt overwrite now = (.error .TypeConflict, fs) := by
  simp [move, hs, ht, hkind]

/-- Witness for C2: moving the file `foo.txt` onto the existing directory
`bar` with `overwrite = true` is rejected with `TypeConflict`. -/
theorem move_kind_mismatch_conflict_witness :
    move fsSample ["foo.txt"] ["bar"] true 9
      = (.error .TypeConflict, fsSample) :=
  move_kind_mismatch_conflict fsSample ["foo.txt"] ["bar"]
    (.file "foo" 5) (.dir 1 []) true 9 rfl rfl (by decide)

/-- Claim C3: for every existing source file and every target that is either
absent (with no file blocking an intermediate segment of the target path, so
that the rename can create it) or an existing file, and distinct from the
source, `move` with `overwrite = true` succeeds: afterwards the target holds
the source's former content, the source path no longer exists, and the
returned Stat's uri is the target URI. -/
theorem move_file_overwrite_success
    (fs : FsNode) (src tgt : Path) (c : String) (m now : Nat)
    (hs : lookup fs src = some (.file c m))
    (hne : src ≠ tgt)
    (htgt : (lookup fs tgt = none ∧ canInsert fs tgt = true) ∨
            (∃ c' m', lookup fs tgt = some (.file c' m'))) :
    ∃ fs', move fs src tgt true now
        = (.ok (toFileStatBasic tgt (.file c m)), fs')
      ∧ (toFileStatBasic tgt (.file c m)).uri = tgt
      ∧ lookup fs' tgt = some (.file c m)
      ∧ lookup fs' src = none := by
  have hsrcne : src ≠ [] := by
    rintro rfl
    rw [lookup_nil, Option.some.injEq] at hs
    subst hs
    match tgt, hne with
    | [], hne => exact hne rfl
    | x :: xs, _ =>
        rcases htgt with ⟨_, h2⟩ | ⟨c', m', h1⟩
        · simp [canInsert] at h2
        · simp [lookup] at h1
  have hanc1 : isAncestorOf src tgt = false := by
    cases hh : isAncestorOf src tgt with
    | false => rfl
    | true =>
        exfalso
        obtain ⟨r, rfl⟩ := isAncestorOf_exists src tgt hh
        match r, hne with
        | [], hne => exact hne (by simp)
        | x :: xs, _ =>
            rcases htgt with ⟨_, h2⟩ | ⟨c', m', h1⟩
            · rw [canInsert_append_file src fs c m x xs hs] at h2
              simp at h2
            · rw [lookup_append, hs] at h1
              simp [lookup] at h1
  have hanc2 : isAncestorOf tgt src = false := by
    cases hh : isAncestorOf tgt src with
    | false => rfl
    | true =>
        exfalso
        obtain ⟨r, hr⟩ := isAncestorOf_exists tgt src hh
        match r, hr with
        | [], hr => exact hne (by simpa using hr)
        | x :: xs, hr =>
            subst hr
            rw [lookup_append] at hs
            rcases htgt with ⟨h1, _⟩ | ⟨c', m', h1⟩
            · rw [h1] at hs; simp at hs
            · rw [h1] at hs; simp [lookup] at hs
  have hci0 : canInsert fs tgt = true := by
    rcases htgt with ⟨_, h2⟩ | ⟨c', m', h1⟩
    · exact h2
    · exact canInsert_of_lookup tgt fs _ h1
  obtain ⟨fs', hins⟩ := insertAt_isSome_of_canInsert tgt now (removeAt fs src)
    (.file c m) (canInsert_removeAt tgt src fs hci0)
  have hexec := moveExec_ok fs src tgt (.file c m) fs' now hanc1 hins
  have htgt' := lookup_insertAt_self tgt now (removeAt fs src) _ fs' hins
  have hsrc' : lookup fs' src = none := by
    rw [lookup_insertAt_frame tgt src now (removeAt fs src) _ fs' hanc2 hanc1 hins]
    exact lookup_removeAt_self src fs _ hs hsrcne
  refine ⟨fs', ?_, rfl, htgt', hsrc'⟩
  rcases htgt with ⟨h1, _⟩ | ⟨c', m', h1⟩
  · simp only [move, hs, h1]
    exact hexec
  · simp only [move, hs, h1]
    simpa using hexec

/-- Witness for C3: moving `foo.txt` to the absent `baz.txt` in `fsSample`
succeeds, carries the content over and removes the source. -/
theorem move_file_overwrite_success_witness :
    ∃ fs', move fsSample ["foo.txt"] ["baz.txt"] true 9
        = (.ok (toFileStatBasic ["baz.txt"] (.file "foo" 5)), fs')
      ∧ (toFileStatBasic ["baz.txt"] (.file "foo" 5)).uri = ["baz.txt"]
      ∧ lookup fs' ["baz.txt"] = some (.file "foo" 5)
      ∧ lookup fs' ["foo.txt"] = none :=
  move_file_overwrite_success fsSample ["foo.txt"] ["baz.txt"] "foo" 5 9
    rfl (by decide) (.inl ⟨rfl, rfl⟩)

/-- Claim C4: for an existing source directory and an existing target
directory (the source not being moved into its own subtree), `move` with
`overwrite = true` succeeds exactly when the target directory is empty:
when it is, the source path no longer exists afterwards and the target holds
the source's former entries; when the target is non-empty the call fails with
`NotEmpty` and the disk is returned unchanged. -/
theorem move_dir_requires_empty_target
    (fs : FsNode) (src tgt : Path) (m m' : Nat)
    (es es' : List (String × FsNode)) (now : Nat)
    (hs : lookup fs src = some (.dir m es))
    (ht : lookup fs tgt = some (.dir m' es'))
    (hna : isAncestorOf src tgt = false) :
    (es' = [] →
      ∃ fs', move fs src tgt true now
          = (.ok (toFileStatBasic tgt (.dir m es)), fs')
        ∧ lookup fs' src = none
        ∧ lookup fs' tgt = some (.dir m es))
  ∧ (es' ≠ [] → move fs src tgt true now = (.error .NotEmpty, fs)) := by
  constructor
  · rintro rfl
    have hsrcne : src ≠ [] := by
      rintro rfl
      simp [isAncestorOf] at hna
    have hne : src ≠ tgt := by
      rintro rfl
      rw [isAncestorOf_refl] at hna
      exact absurd hna (by simp)
    have hanc2 : isAncestorOf tgt src = false := by
      cases hh : isAncestorOf tgt src with
      | false => rfl
      | true =>
          exfalso
          obtain ⟨r, hr⟩ := isAncestorOf_exists tgt src hh
          match r, hr with
          | [], hr => exact hne (by simpa using hr)
          | x :: xs, hr =>
              subst hr
              rw [lookup_append, ht] at hs
              simp [lookup_emptyDir] at hs
    obtain ⟨fs', hins⟩ := insertAt_isSome_of_canInsert tgt now (removeAt fs src)
      (.dir m es) (canInsert_removeAt tgt src fs (canInsert_of_lookup tgt fs _ ht))
    have hexec := moveExec_ok fs src tgt (.dir m es) fs' now hna hins
    have htgt' := lookup_insertAt_self tgt now (removeAt fs src) _ fs' hins
    have hsrc' : lookup fs' src = none := by
      rw [lookup_insertAt_frame tgt src now (removeAt fs src) _ fs' hanc2 hna hins]
      exact lookup_removeAt_self src fs _ hs hsrcne
    refine ⟨fs', ?_, hsrc', htgt'⟩
    simp only [move, hs, ht]
    simpa using hexec
  · intro hnemp
    match es', hnemp, ht with
    | e :: es2, _, ht => simp [move, hs, ht, FsNode.isDir]

/-- Witness for C4: in `fsSample2`, moving the non-empty directory `src` onto
the empty directory `dst` succeeds, relocating the entries and removing the
source. -/
theorem move_dir_requires_empty_target_witness :
    ∃ fs', move fsSample2 ["src"] ["dst"] true 9
        = (.ok (toFileStatBasic ["dst"] (.dir 1 [("a.txt", .file "a" 2)])), fs')
      ∧ lookup fs' ["src"] = none
      ∧ lookup fs' ["dst"] = some (.dir 1 [("a.txt", .file "a" 2)]) :=
  (move_dir_requires_empty_target fsSample2 ["src"] ["dst"] 1 3
    [("a.txt", .file "a" 2)] [] 9 rfl rfl (by decide)).1 rfl

/-- Claim C5: `copy` fails `NotFound` when the source is absent and
`AlreadyExists` when the target is present; on success (target absent and
creatable: no file blocks an intermediate segment, and the target does not lie
inside the source subtree, where no recursive duplication could put it) the
source subtree is left byte-for-byte unchanged, the target subtree equals the
source byte-for-byte with its relative structure preserved, and every missing
intermediate directory on the target path has been created implicitly. -/
theorem copy_preserves_source
    (fs : FsNode) (src tgt : Path) (now : Nat) :
    (lookup fs src = none → copy fs src tgt now = (.error .NotFound, fs))
  ∧ (∀ s t, lookup fs src = some s → lookup fs tgt = some t →
      copy fs src tgt now = (.error .AlreadyExists, fs))
  ∧ (∀ s, lookup fs src = some s → lookup fs tgt = none →
      isAncestorOf src tgt = false → canInsert fs tgt = true →
      ∃ fs', copy fs src tgt now = (.ok (toFileStatBasic tgt s), fs')
        ∧ lookup fs' src = some s
        ∧ lookup fs' tgt = some s
        ∧ (∀ q, isAncestorOf q tgt = true → q ≠ tgt →
            ∃ dm des, lookup fs' q = some (.dir dm des))) := by
  refine ⟨?_, ?_, ?_⟩
  · intro h
    simp [copy, h]
  · intro s t h1 h2
    simp [copy, h1, h2]
  · intro s h1 h2 hanc hci
    have hanc2 : isAncestorOf tgt src = false := by
      cases hh : isAncestorOf tgt src with
      | false => rfl
      | true =>
          exfalso
          obtain ⟨r, hr⟩ := isAncestorOf_exists tgt src hh
          match r, hr with
          | [], hr =>
              subst hr
              rw [List.append_nil] at h1
              rw [h2] at h1
              exact Option.noConfusion h1
          | x :: xs, hr =>
              subst hr
              rw [lookup_append, h2] at h1
              exact Option.noConfusion h1
    obtain ⟨fs', hins⟩ := insertAt_isSome_of_canInsert tgt now fs s hci
    refine ⟨fs', ?_, ?_, lookup_insertAt_self tgt now fs s fs' hins,
      fun q hq hqne => insertAt_intermediate_dirs tgt q now fs s fs' hins hq hqne⟩
    · simp only [copy, h1, h2]
      rw [if_neg (by simp [hanc]), hins]
    · rw [lookup_insertAt_frame tgt src now fs s fs' hanc2 hanc hins]
      exact h1

/-- Witness for C5: copying the non-empty directory `src` of `fsSample2` to
the absent nested path `nested/dst` duplicates the subtree there, creates the
intermediate directory `nested`, and leaves the source in place. -/
theorem copy_preserves_source_witness :
    ∃ fs', copy fsSample2 ["src"] ["nested", "dst"] 9
        = (.ok (toFileStatBasic ["nested", "dst"] srcNode2), fs')
      ∧ lookup fs' ["src"] = some srcNode2
      ∧ lookup fs' ["nested", "dst"] = some srcNode2 := by
  obtain ⟨fs', hcall, hsrc, htgt, _⟩ :=
    (copy_preserves_source fsSample2 ["src"] ["nested", "dst"] 9).2.2
      srcNode2 rfl rfl (by decide) rfl
  exact ⟨fs', hcall, hsrc, htgt⟩

/-- Claim C6: every Stat produced for a file — by `getFileStat`,
`resolveContent`, `setContent` or `createFile` — has `isDirectory = false`,
populated `size` and `lastModification`, and carries neither the `hasChildren`
nor the `children` field; and the Stat produced for a directory with expansion
carries `children` whose elements themselves have no `children` field
(depth-one expansion only). -/
theorem stat_shape_invariants (fs : FsNode) (uri : Path) (now : Nat) :
    (∀ c m, lookup fs uri = some (.file c m) →
      ∃ st, getFileStat fs uri = .ok st ∧ st.isDirectory = false
        ∧ st.size = some c.length ∧ st.lastModification = m
        ∧ st.hasChildren = none ∧ st.children = none)
  ∧ (∀ c m, lookup fs uri = some (.file c m) →
      ∃ fc, resolveContent fs uri none = .ok fc
        ∧ fc.stat.isDirectory = false
        ∧ fc.stat.size = some c.length ∧ fc.stat.lastModification = m
        ∧ fc.stat.hasChildren = none ∧ fc.stat.children = none)
  ∧ (∀ (stat : FileStat) c m content, lookup fs stat.uri = some (.file c m) →
      stat.size = some c.length → stat.lastModification = m →
      ∃ st fs', setContent fs stat content none now = (.ok st, fs')
        ∧ st.isDirectory = false ∧ st.size = some content.length
        ∧ st.lastModification = now ∧ st.hasChildren = none
        ∧ st.children = none)
  ∧ (∀ content, lookup fs uri = none → canInsert fs uri = true →
      ∃ st fs', createFile fs uri content none now = (.ok st, fs')
        ∧ st.isDirectory = false ∧ st.size = some content.length
        ∧ st.lastModification = now ∧ st.hasChildren = none
        ∧ st.children = none)
  ∧ (∀ m es, lookup fs uri = some (.dir m es) →
      ∃ st l, getFileStat fs uri = .ok st ∧ st.children = some l
        ∧ ∀ ch ∈ l, ch.children = none) := by
  refine ⟨?_, ?_, ?_, ?_, ?_⟩
  · intro c m h
    refine ⟨toFileStatBasic uri (.file c m), ?_, rfl, rfl, rfl, rfl, rfl⟩
    simp [getFileStat, h, toFileStat]
  · intro c m h
    exact ⟨⟨toFileStatBasic uri (.file c m), c⟩,
      by simp [resolveContent, h, encodingOk], rfl, rfl, rfl, rfl, rfl⟩
  · intro stat c m content h h1 h2
    obtain ⟨fs', hcall, _⟩ := setContent_ok fs stat c content m now h h1 h2
    exact ⟨toFileStatBasic stat.uri (.file content now), fs', hcall,
      rfl, rfl, rfl, rfl, rfl⟩
  · intro content habs hci
    obtain ⟨fs', hcall, _⟩ := createFile_ok fs uri content now habs hci
    exact ⟨toFileStatBasic uri (.file content now), fs', hcall,
      rfl, rfl, rfl, rfl, rfl⟩
  · intro m es h
    refine ⟨toFileStat uri (.dir m es) true,
      es.map (fun e => toFileStatBasic (uri ++ [e.1]) e.2), ?_, ?_, ?_⟩
    · simp [getFileStat, h]
    · simp [toFileStat]
    · intro ch hch
      obtain ⟨e, _, rfl⟩ := List.mem_map.mp hch
      exact toFileStatBasic_children (uri ++ [e.1]) e.2

/-- Witness for C6: the Stat `getFileStat` produces for the file `foo.txt`
in `fsSample` has the file shape — no `hasChildren`, no `children`. -/
theorem stat_shape_invariants_witness :
    ∃ st, getFileStat fsSample ["foo.txt"] = .ok st ∧ st.isDirectory = false
      ∧ st.size = some "foo".length ∧ st.lastModification = 5
      ∧ st.hasChildren = none ∧ st.children = none :=
  (stat_shape_invariants fsSample ["foo.txt"] 9).1 "foo" 5 rfl

/-- Claim C7: `createFolder` fails with `AlreadyExists` when a directory or
file is already present at the URI (returning the disk unchanged); otherwise —
including when intermediate path segments are missing directories — it creates
every missing intermediate directory implicitly and returns a Stat with the
requested URI, `hasChildren = false` and `children = []`. -/
theorem createFolder_creates_intermediates (fs : FsNode) (uri : Path) (now : Nat) :
    (∀ n, lookup fs uri = some n →
      createFolder fs uri now = (.error .AlreadyExists, fs))
  ∧ (lookup fs uri = none → canInsert fs uri = true →
      ∃ st fs', createFolder fs uri now = (.ok st, fs')
        ∧ st.uri = uri ∧ st.hasChildren = some false ∧ st.children = some []
        ∧ lookup fs' uri = some (.dir now [])
        ∧ (∀ q, isAncestorOf q uri = true → q ≠ uri →
            ∃ dm des, lookup fs' q = some (.dir dm des))) := by
  constructor
  · intro n h
    simp [createFolder, h]
  · intro habs hci
    obtain ⟨fs', hins⟩ := insertAt_isSome_of_canInsert uri now fs (.dir now []) hci
    refine ⟨toFileStat uri (.dir now []) true, fs', ?_, rfl, rfl, rfl,
      lookup_insertAt_self uri now fs _ fs' hins,
      fun q hq hqne => insertAt_intermediate_dirs uri q now fs _ fs' hins hq hqne⟩
    simp [createFolder, habs, hins]

/-- Witness for C7: creating the nested folder `sub/leaf` in `fsSample`
succeeds, creates the missing intermediate `sub`, and reports an empty new
directory. -/
theorem createFolder_creates_intermediates_witness :
    ∃ st fs', createFolder fsSample ["sub", "leaf"] 9 = (.ok st, fs')
      ∧ st.uri = ["sub", "leaf"] ∧ st.hasChildren = some false
      ∧ st.children = some []
      ∧ lookup fs' ["sub", "leaf"] = some (.dir 9 []) := by
  obtain ⟨st, fs', hcall, hu, hhc, hch, hlk, _⟩ :=
    (createFolder_creates_intermediates fsSample ["sub", "leaf"] 9).2 rfl rfl
  exact ⟨st, fs', hcall, hu, hhc, hch, hlk⟩

/-- Claim C8: with a client registered, the raw notification burst produced by
creating directory `foo`, then `foo/bar`, then writing file `foo/bar/baz.txt`
is delivered to the client as an `ADDED` change for `foo`, for `foo/bar` and
for `foo/bar/baz.txt`, each exactly once (the write's create+modify pair
coalesces into one `ADDED`), with each parent reported before its child. -/
theorem watcher_delivers_nested_added :
    deliverChanges true c8Raw
      = [⟨["foo"], .ADDED⟩, ⟨["foo", "bar"], .ADDED⟩,
         ⟨["foo", "bar", "baz.txt"], .ADDED⟩]
  ∧ (deliverChanges true c8Raw).countP
      (fun ch => ch = ⟨["foo"], .ADDED⟩) = 1
  ∧ (deliverChanges true c8Raw).countP
      (fun ch => ch = ⟨["foo", "bar"], .ADDED⟩) = 1
  ∧ (deliverChanges true c8Raw).countP
      (fun ch => ch = ⟨["foo", "bar", "baz.txt"], .ADDED⟩) = 1 := by
  decide

end Theia

namespace LanguageContribution

/-- Claim C10: for every JSON-RPC message passed through `forward`, if the
message — after the optional caller-supplied map is applied — is a request
with the `initialize` method, its `params.processId` is replaced by the
forwarding process's own pid before delivery, every other field of it being
forwarded unchanged; every other message is forwarded unchanged. -/
theorem forward_rewrites_initialize_pid (pid : Int)
    (map : Option (Message → Message)) (message : Message) :
    ((applyMap map message).isRequest = true ∧
        (applyMap map message).method = initializeMethod →
      forward pid map message
        = { applyMap map message with
            params := { (applyMap map message).params with processId := pid } })
  ∧ (¬ ((applyMap map message).isRequest = true ∧
        (applyMap map message).method = initializeMethod) →
      forward pid map message = applyMap map message) := by
  constructor
  · intro h
    simp [forward, mapInitialize, h]
  · intro h
    simp [forward, mapInitialize, h]

/-- Witness for C10: forwarding a concrete `initialize` request with no
caller-supplied map rewrites its `processId` to the forwarder's pid `42` and
nothing else. -/
theorem forward_rewrites_initialize_pid_witness :
    forward 42 none initMessage
      = { initMessage with
          params := { initMessage.params with processId := 42 } } :=
  (forward_rewrites_initialize_pid 42 none initMessage).1 ⟨rfl, rfl⟩

end LanguageContribution
